import Mathlib

/-!
Verification of the MEI-to-MIDI conversion core (`mei_to_midi.py`).

The sanitizer `remove_lyrics_from_mei` operates on an `xml.etree.ElementTree`
document: an ordered rooted tree of elements, each with a qualified tag, an
ordered attribute dictionary and an ordered list of child elements.  We embed
the tree as a rose tree `Elem` and each of the sanitizer's three loops
(`.//mei:syl` normalization, `.//mei:verse` removal, `.//mei:measure`
number repair) as a structural pass over the tree.  Python `findall('.//tag')`
matching selects strict descendants only (never the root), `Element`
comparison is by object identity, and attribute access follows dict
semantics; the passes below reproduce these behaviours.
-/

namespace MeiToMidi

/-- XML element: qualified tag, attribute list (dict: insertion ordered,
unique keys), ordered children.  Mirrors `xml.etree.ElementTree.Element`. -/
inductive Elem where
  | mk (tag : String) (attrs : List (String × String)) (children : List Elem)

def Elem.tag : Elem → String
  | .mk t _ _ => t

def Elem.attrs : Elem → List (String × String)
  | .mk _ a _ => a

def Elem.children : Elem → List Elem
  | .mk _ _ c => c

mutual

def decEqElem : (a b : Elem) → Decidable (a = b)
  | .mk t1 a1 c1, .mk t2 a2 c2 =>
    if h1 : t1 = t2 then
      if h2 : a1 = a2 then
        match decEqElemList c1 c2 with
        | isTrue h3 => isTrue (by rw [h1, h2, h3])
        | isFalse h3 => isFalse (by simp only [Elem.mk.injEq]; tauto)
      else isFalse (by simp only [Elem.mk.injEq]; tauto)
    else isFalse (by simp only [Elem.mk.injEq]; tauto)

def decEqElemList : (cs ds : List Elem) → Decidable (cs = ds)
  | [], [] => isTrue rfl
  | [], _ :: _ => isFalse (by simp)
  | _ :: _, [] => isFalse (by simp)
  | c :: cs, d :: ds =>
    match decEqElem c d, decEqElemList cs ds with
    | isTrue h1, isTrue h2 => isTrue (by rw [h1, h2])
    | isFalse h1, _ => isFalse (by simp only [List.cons.injEq]; tauto)
    | _, isFalse h2 => isFalse (by simp only [List.cons.injEq]; tauto)

end

instance : DecidableEq Elem := decEqElem

/-- `element.get(key)`: dict lookup. -/
def getAttr : List (String × String) → String → Option String
  | [], _ => none
  | (k', v') :: rest, k => if k' = k then some v' else getAttr rest k

/-- `element.set(key, value)`: dict update — replace the value at an existing
key in place, else append the new pair (insertion order preserved). -/
def setAttr : List (String × String) → String → String → List (String × String)
  | [], k, v => [(k, v)]
  | (k', v') :: rest, k, v =>
    if k' = k then (k, v) :: rest else (k', v') :: setAttr rest k v

/-- The MEI namespace, `ns = {'mei': 'http://www.music-encoding.org/ns/mei'}`. -/
def meiNS : String := "http://www.music-encoding.org/ns/mei"

/-- ElementTree qualified tag `\x7bnamespace\x7dlocal`. -/
def qualTag (l : String) : String := "\x7b" ++ meiNS ++ "\x7d" ++ l

def verseTag : String := qualTag "verse"

def sylTag : String := qualTag "syl"

def measureTag : String := qualTag "measure"

/-- Model of Python's `int(s)` success predicate (ASCII fragment): optional
surrounding whitespace, optional sign, then decimal digits with single
underscores allowed between digits. -/
def isPyWS (c : Char) : Bool :=
  c = ' ' || c = '\t' || c = '\n' || c = '\x0d' || c = '\x0b' || c = '\x0c'

def pyDigitsAux : List Char → Bool
  | [] => true
  | c :: cs =>
    if c = '_' then
      match cs with
      | [] => false
      | d :: ds => d.isDigit && pyDigitsAux ds
    else c.isDigit && pyDigitsAux cs

def pyDigits : List Char → Bool
  | [] => false
  | c :: cs => c.isDigit && pyDigitsAux cs

def pyStrip (l : List Char) : List Char :=
  ((l.dropWhile isPyWS).reverse.dropWhile isPyWS).reverse

def pyIntChars : List Char → Bool
  | [] => false
  | c :: cs => if c = '+' || c = '-' then pyDigits cs else pyDigits (c :: cs)

def pyIntParseable (s : String) : Bool := pyIntChars (pyStrip s.toList)

/-- Model of Python `str(n)` for a non-negative index: decimal digits. -/
def digitChar (d : Nat) : Char := Char.ofNat (48 + d)

def natToDecAux : Nat → Nat → List Char → List Char
  | 0, _, acc => acc
  | fuel + 1, n, acc =>
    if n = 0 then acc
    else natToDecAux fuel (n / 10) (digitChar (n % 10) :: acc)

def natToDec (n : Nat) : String :=
  if n = 0 then "0" else String.mk (natToDecAux n n [])

/-! ### Pass 1 — syllable `wordpos` normalization (lines 27–34). -/

/-- The body of the `syl` loop, acting on one syl element's attributes:
keep `s`/`i`/`m`/`t`, rewrite `u` to `i`, rewrite anything else (including
an absent attribute, where `get` returns `None`) to `s`. -/
def fixWordposAttrs (a : List (String × String)) : List (String × String) :=
  match getAttr a "wordpos" with
  | some w =>
    if w = "s" ∨ w = "i" ∨ w = "m" ∨ w = "t" then a
    else if w = "u" then setAttr a "wordpos" "i"
    else setAttr a "wordpos" "s"
  | none => setAttr a "wordpos" "s"

mutual

/-- Apply the syl loop to an element occurring strictly below the root. -/
def sylFixElem : Elem → Elem
  | .mk t a cs =>
    .mk t (if t = sylTag then fixWordposAttrs a else a) (sylFixList cs)

def sylFixList : List Elem → List Elem
  | [] => []
  | c :: cs => sylFixElem c :: sylFixList cs

end

/-- The whole syl loop: `root.findall('.//mei:syl', ns)` yields strict
descendants only, so the root's own attributes are never rewritten. -/
def sylTop : Elem → Elem
  | .mk t a cs => .mk t a (sylFixList cs)

/-! ### Pass 2 — verse removal (lines 37–45). -/

mutual

/-- Verse removal below a surviving element: every verse-tagged strict
descendant is detached from its parent's child list (`findall('.//mei:verse')`
collects all of them up front; a verse nested inside a removed verse has no
parent reachable from the root by the time it is processed, but its subtree is
already detached, so the net effect is dropping every verse-rooted subtree). -/
def verseRemoveElem : Elem → Elem
  | .mk t a cs => .mk t a (verseRemoveList cs)

def verseRemoveList : List Elem → List Elem
  | [] => []
  | c :: cs =>
    if c.tag = verseTag then verseRemoveList cs
    else verseRemoveElem c :: verseRemoveList cs

end

/-! ### Pass 3 — measure number repair (lines 48–65). -/

/-- `if measure_num:` then `int(measure_num)` failing: the attribute is
present, non-empty (Python truthiness) and not parseable. -/
def badN (a : List (String × String)) : Bool :=
  match getAttr a "n" with
  | some v => v ≠ "" && !(pyIntParseable v)
  | none => false

mutual

/-- Measure repair below an element that is not itself a measure child
(the root, or a non-measure element): only recurse. -/
def measFixElem : Elem → Elem
  | .mk t a cs => .mk t a (measFixList 0 cs)

/-- A measure child whose zero-based index among its parent's measure
children (`parent.findall('mei:measure', ns).index(measure)`) is `k`:
replace a present, non-empty, non-parseable `n` by `str(k)`. -/
def measFixChild (k : Nat) : Elem → Elem
  | .mk t a cs =>
    .mk t (if badN a then setAttr a "n" (natToDec k) else a) (measFixList 0 cs)

def measFixList : Nat → List Elem → List Elem
  | _, [] => []
  | k, c :: cs =>
    if c.tag = measureTag then measFixChild k c :: measFixList (k + 1) cs
    else measFixElem c :: measFixList k cs

end

/-- The tree transformation of `remove_lyrics_from_mei`: the three loops run
in source order over the same tree. -/
def sanitizeTree (root : Elem) : Elem :=
  measFixElem (verseRemoveElem (sylTop root))

/-- `remove_lyrics_from_mei` at the text boundary.  `ET.fromstring` /
`ET.tostring` are the external XML codec, taken as parameters: parsing either
yields a root element or raises, and the enclosing `try`/`except` returns the
pristine input on any failure (line 73). -/
def remove_lyrics_from_mei (fromstring : String → Option Elem)
    (tostring : Elem → String) (mei_data : String) : String :=
  match fromstring mei_data with
  | some root => tostring (sanitizeTree root)
  | none => mei_data

/-! ### Observation predicates on trees. -/

/-- A syl element's `wordpos` holds one of the four defined codes. -/
def wordposOK (a : List (String × String)) : Bool :=
  match getAttr a "wordpos" with
  | some w => decide (w = "s" ∨ w = "i" ∨ w = "m" ∨ w = "t")
  | none => false

/-- A measure element's `n` is absent, empty, or integer-parseable
(the states the repair loop leaves untouched). -/
def nOK (a : List (String × String)) : Bool :=
  match getAttr a "n" with
  | some v => v = "" || pyIntParseable v
  | none => true

mutual

/-- Every syl element in this subtree (the subtree root included) has a
normalized `wordpos`. -/
def sylNormAll : Elem → Bool
  | .mk t a cs => (if t = sylTag then wordposOK a else true) && sylNormList cs

def sylNormList : List Elem → Bool
  | [] => true
  | c :: cs => sylNormAll c && sylNormList cs

end

/-- Every syl element strictly below the root has a normalized `wordpos`. -/
def sylNormBelow : Elem → Bool
  | .mk _ _ cs => sylNormList cs

mutual

def noVerseAll : Elem → Bool
  | .mk t _ cs => !(t = verseTag) && noVerseList cs

def noVerseList : List Elem → Bool
  | [] => true
  | c :: cs => noVerseAll c && noVerseList cs

end

/-- No verse element strictly below the root. -/
def noVerseBelow : Elem → Bool
  | .mk _ _ cs => noVerseList cs

mutual

def measOKAll : Elem → Bool
  | .mk t a cs => (if t = measureTag then nOK a else true) && measOKList cs

def measOKList : List Elem → Bool
  | [] => true
  | c :: cs => measOKAll c && measOKList cs

end

/-- Every measure element strictly below the root has an absent, empty or
integer-parseable `n`. -/
def measOKBelow : Elem → Bool
  | .mk _ _ cs => measOKList cs

/-- A measure element's `n`, when present (even empty), parses as an
integer. -/
def nPresentInt (a : List (String × String)) : Bool :=
  match getAttr a "n" with
  | some v => pyIntParseable v
  | none => true

mutual

/-- Every measure element in the tree (root included) with a present `n`
has an integer-parseable `n` — the invariant exactly as the specification
states it. -/
def measIntAll : Elem → Bool
  | .mk t a cs => (if t = measureTag then nPresentInt a else true) && measIntList cs

def measIntList : List Elem → Bool
  | [] => true
  | c :: cs => measIntAll c && measIntList cs

end

mutual

/-- Number of elements with the given tag in the subtree (root included). -/
def countTagAll (tg : String) : Elem → Nat
  | .mk t _ cs => (if t = tg then 1 else 0) + countTagList tg cs

def countTagList (tg : String) : List Elem → Nat
  | [] => 0
  | c :: cs => countTagAll tg c + countTagList tg cs

end

/-- Number of elements with the given tag strictly below the root. -/
def countTagBelow (tg : String) : Elem → Nat
  | .mk _ _ cs => countTagList tg cs

mutual

/-- Forget all attributes, keeping tags and tree shape. -/
def stripAttrsElem : Elem → Elem
  | .mk t _ cs => .mk t [] (stripAttrsList cs)

def stripAttrsList : List Elem → List Elem
  | [] => []
  | c :: cs => stripAttrsElem c :: stripAttrsList cs

end

/-- `x` is a node of the tree `u` (reflexive-transitive child reachability;
this is what `root.iter()` enumerates). -/
inductive Occurs : Elem → Elem → Prop where
  | refl (e : Elem) : Occurs e e
  | child {x c : Elem} {t : String} {a : List (String × String)}
      {cs : List Elem} : c ∈ cs → Occurs x c → Occurs x (.mk t a cs)

/-- The measure children of an element, in order:
`parent.findall('mei:measure', ns)`. -/
def measureChildren (e : Elem) : List Elem :=
  e.children.filter (fun c => c.tag = measureTag)

/-! ### Timeline assembler (`convert_mei_to_midi`, lines 109–145).

The score object and the per-object translators are external (`music21`); we
model each flattened object together with the event list its translator
returns.  `score.flat` is the written (unexpanded) flattened view, so repeat
structures contribute their material exactly once by construction. -/

/-- A low-level MIDI event descriptor (`music21.midi.MidiEvent`). -/
structure MidiEvent where
  track : Nat
  time : Int
  type : String
  data : List Nat
deriving DecidableEq

instance : Inhabited MidiEvent := ⟨⟨0, 0, "", []⟩⟩

/-- A tempo indication from `score.flat.getElementsByClass('TempoIndication')`,
carrying the event list `midi.translate.tempoToMidiEvents(t)` returns. -/
structure TempoIndication where
  events : List MidiEvent
deriving DecidableEq

/-- A note/chord/rest from `score.flat.notesAndRests`, carrying its rest flag
and the event list `midi.translate.noteToMidiEvents(n)` returns. -/
structure GeneralNote where
  isRest : Bool
  events : List MidiEvent
deriving DecidableEq

/-- A parsed score's flattened, time-ordered content. -/
structure Score where
  tempos : List TempoIndication
  notesAndRests : List GeneralNote

/-- Lines 117–122: the event appended for one tempo indication — track 0,
time 0, SET_TEMPO, with the data of the first translated event. -/
def setTempoEvent (d : List Nat) : MidiEvent :=
  { track := 0, time := 0, type := "SET_TEMPO", data := d }

/-- The tempo loop (lines 116–122).  `tempoToMidiEvents(t)[0]` is indexed
without a guard: an empty translation raises IndexError, which the
`except` at line 142 turns into an aborted assembly (`none`). -/
def addTempoEvents : List TempoIndication → List MidiEvent →
    Option (List MidiEvent)
  | [], acc => some acc
  | t :: ts, acc =>
    match t.events with
    | [] => none
    | e :: _ => addTempoEvents ts (acc ++ [setTempoEvent e.data])

/-- The note loop (lines 125–132): rests are skipped, every translated event
of a non-rest object is appended in order. -/
def addNoteEvents : List GeneralNote → List MidiEvent → List MidiEvent
  | [], acc => acc
  | n :: ns, acc =>
    if n.isRest then addNoteEvents ns acc
    else addNoteEvents ns (acc ++ n.events)

/-- The assembled single track's event list, `none` when assembly raised. -/
def assembleTrack (s : Score) : Option (List MidiEvent) :=
  match addTempoEvents s.tempos [] with
  | none => none
  | some evs => some (addNoteEvents s.notesAndRests evs)

/-- The MIDI-creation stage of `convert_mei_to_midi` (lines 110–145): on any
exception inside the inner `try` the result is `None` and no output file is
produced; on success the result is the output path. -/
def midiCreation (s : Score) (output_file : String) : Option String :=
  match assembleTrack s with
  | none => none
  | some _ => some output_file

/-! ### Basic lemmas about attribute access. -/

theorem getAttr_setAttr_same (a : List (String × String)) (k v : String) :
    getAttr (setAttr a k v) k = some v := by
  induction a with
  | nil => simp [setAttr, getAttr]
  | cons p rest ih =>
    obtain ⟨k', v'⟩ := p
    by_cases h : k' = k
    · simp [setAttr, getAttr, h]
    · simp [setAttr, getAttr, h, ih]

/-! ### Lemmas about the integer-parse model. -/

theorem ws_cases {c : Char} (h : isPyWS c = true) :
    c = ' ' ∨ c = '\t' ∨ c = '\n' ∨ c = '\x0d' ∨ c = '\x0b' ∨ c = '\x0c' := by
  have h' := h
  simp only [isPyWS, Bool.or_eq_true, decide_eq_true_eq] at h'
  tauto

theorem digit_not_ws {c : Char} (h : c.isDigit = true) : isPyWS c = false := by
  cases hw : isPyWS c with
  | false => rfl
  | true =>
    exfalso
    rcases ws_cases hw with rfl | rfl | rfl | rfl | rfl | rfl <;>
      exact absurd h (by decide)

theorem digit_not_underscore {c : Char} (h : c.isDigit = true) : ¬(c = '_') := by
  intro he
  subst he
  exact absurd h (by decide)

theorem pyDigitsAux_of_digits {l : List Char}
    (h : ∀ c ∈ l, c.isDigit = true) : pyDigitsAux l = true := by
  induction l with
  | nil => rfl
  | cons c cs ih =>
    have hc : c.isDigit = true := h c (by simp)
    have hcs : ∀ x ∈ cs, x.isDigit = true := fun x hx => h x (by simp [hx])
    rw [pyDigitsAux.eq_def]
    simp only [if_neg (digit_not_underscore hc)]
    simp [hc, ih hcs]

theorem pyDigits_of_digits {l : List Char} (hne : l ≠ [])
    (h : ∀ c ∈ l, c.isDigit = true) : pyDigits l = true := by
  cases l with
  | nil => exact absurd rfl hne
  | cons c cs =>
    have hc : c.isDigit = true := h c (by simp)
    have hcs : ∀ x ∈ cs, x.isDigit = true := fun x hx => h x (by simp [hx])
    simp [pyDigits, hc, pyDigitsAux_of_digits hcs]

theorem dropWhile_eq_self_of_not {l : List Char}
    (h : ∀ c ∈ l, isPyWS c = false) : l.dropWhile isPyWS = l := by
  cases l with
  | nil => rfl
  | cons c cs => simp [List.dropWhile_cons, h c (by simp)]

theorem pyStrip_of_digits {l : List Char}
    (h : ∀ c ∈ l, c.isDigit = true) : pyStrip l = l := by
  have hws : ∀ c ∈ l, isPyWS c = false := fun c hc => digit_not_ws (h c hc)
  have h1 : l.dropWhile isPyWS = l := dropWhile_eq_self_of_not hws
  have hws' : ∀ c ∈ l.reverse, isPyWS c = false := by
    intro c hc
    exact hws c (List.mem_reverse.mp hc)
  have h2 : l.reverse.dropWhile isPyWS = l.reverse :=
    dropWhile_eq_self_of_not hws'
  simp [pyStrip, h1, h2]

theorem pyIntChars_of_digits {l : List Char} (hne : l ≠ [])
    (h : ∀ c ∈ l, c.isDigit = true) : pyIntChars l = true := by
  cases l with
  | nil => exact absurd rfl hne
  | cons c cs =>
    have hc : c.isDigit = true := h c (by simp)
    have hplus : ¬(c = '+') := by
      intro he; subst he; exact absurd hc (by decide)
    have hminus : ¬(c = '-') := by
      intro he; subst he; exact absurd hc (by decide)
    simp [pyIntChars, hplus, hminus, pyDigits_of_digits hne h]

theorem digitChar_isDigit {d : Nat} (h : d < 10) :
    (digitChar d).isDigit = true := by
  unfold digitChar
  interval_cases d <;> decide

theorem natToDecAux_digits :
    ∀ (f n : Nat) (acc : List Char), (∀ c ∈ acc, c.isDigit = true) →
      ∀ c ∈ natToDecAux f n acc, c.isDigit = true := by
  intro f
  induction f with
  | zero => intro n acc hacc; simpa [natToDecAux] using hacc
  | succ f ih =>
    intro n acc hacc c hc
    by_cases hn : n = 0
    · simp only [natToDecAux, hn, if_pos rfl] at hc
      exact hacc c hc
    · simp only [natToDecAux, if_neg hn] at hc
      refine ih (n / 10) _ ?_ c hc
      intro x hx
      rcases List.mem_cons.mp hx with rfl | hx'
      · exact digitChar_isDigit (Nat.mod_lt n (by norm_num))
      · exact hacc x hx'

theorem natToDecAux_suffix :
    ∀ (f n : Nat) (acc : List Char), ∃ l, natToDecAux f n acc = l ++ acc := by
  intro f
  induction f with
  | zero => intro n acc; exact ⟨[], rfl⟩
  | succ f ih =>
    intro n acc
    by_cases hn : n = 0
    · exact ⟨[], by simp [natToDecAux, hn]⟩
    · obtain ⟨l, hl⟩ := ih (n / 10) (digitChar (n % 10) :: acc)
      refine ⟨l ++ [digitChar (n % 10)], ?_⟩
      simp [natToDecAux, hn, hl]

theorem natToDec_toList_digits (n : Nat) :
    (natToDec n).toList ≠ [] ∧ ∀ c ∈ (natToDec n).toList, c.isDigit = true := by
  by_cases hn : n = 0
  · subst hn; exact ⟨by decide, by decide⟩
  · have hrepr : natToDec n = String.mk (natToDecAux n n []) := by
      simp [natToDec, hn]
    have hlist : (natToDec n).toList = natToDecAux n n [] := by
      rw [hrepr]; rfl
    constructor
    · rw [hlist]
      obtain ⟨f, rfl⟩ : ∃ f, n = f + 1 := ⟨n - 1, by omega⟩
      obtain ⟨l, hl⟩ := natToDecAux_suffix f ((f + 1) / 10)
        (digitChar ((f + 1) % 10) :: [])
      simp only [natToDecAux, if_neg (Nat.succ_ne_zero f), hl]
      simp
    · rw [hlist]
      exact natToDecAux_digits n n [] (by simp)

theorem pyIntParseable_natToDec (n : Nat) :
    pyIntParseable (natToDec n) = true := by
  obtain ⟨hne, hdig⟩ := natToDec_toList_digits n
  unfold pyIntParseable
  rw [pyStrip_of_digits hdig]
  exact pyIntChars_of_digits hne hdig

/-! ### The syllable pass establishes its invariant and is the identity on
already-normalized trees. -/

theorem wordposOK_fix (a : List (String × String)) :
    wordposOK (fixWordposAttrs a) = true := by
  cases hg : getAttr a "wordpos" with
  | none => simp [fixWordposAttrs, hg, wordposOK, getAttr_setAttr_same]
  | some w =>
    by_cases h4 : w = "s" ∨ w = "i" ∨ w = "m" ∨ w = "t"
    · have hfix : fixWordposAttrs a = a := by
        simp [fixWordposAttrs, hg, h4]
      rw [hfix]
      unfold wordposOK
      rw [hg]
      simpa using h4
    · by_cases hu : w = "u"
      · have hfix : fixWordposAttrs a = setAttr a "wordpos" "i" := by
          simp [fixWordposAttrs, hg, h4, hu]
        rw [hfix]
        simp [wordposOK, getAttr_setAttr_same]
      · have hfix : fixWordposAttrs a = setAttr a "wordpos" "s" := by
          simp [fixWordposAttrs, hg, h4, hu]
        rw [hfix]
        simp [wordposOK, getAttr_setAttr_same]

theorem fix_of_wordposOK {a : List (String × String)}
    (h : wordposOK a = true) : fixWordposAttrs a = a := by
  unfold wordposOK at h
  cases hg : getAttr a "wordpos" with
  | none => rw [hg] at h; exact absurd h (by simp)
  | some w =>
    rw [hg] at h
    have h4 : w = "s" ∨ w = "i" ∨ w = "m" ∨ w = "t" := by simpa using h
    simp [fixWordposAttrs, hg, h4]

mutual

theorem sylNormAll_sylFixElem : (e : Elem) → sylNormAll (sylFixElem e) = true
  | .mk t a cs => by
    have hcs := sylNormList_sylFixList cs
    by_cases ht : t = sylTag <;>
      simp [sylFixElem, sylNormAll, ht, wordposOK_fix, hcs]

theorem sylNormList_sylFixList :
    (cs : List Elem) → sylNormList (sylFixList cs) = true
  | [] => rfl
  | c :: cs => by
    have h1 := sylNormAll_sylFixElem c
    have h2 := sylNormList_sylFixList cs
    simp [sylFixList, sylNormList, h1, h2]

end

mutual

theorem sylFixElem_of_norm : (e : Elem) → sylNormAll e = true → sylFixElem e = e
  | .mk t a cs => by
    intro h
    simp only [sylNormAll, Bool.and_eq_true] at h
    obtain ⟨hown, hcs⟩ := h
    have hrec := sylFixList_of_norm cs hcs
    by_cases ht : t = sylTag
    · rw [if_pos ht] at hown
      simp [sylFixElem, ht, fix_of_wordposOK hown, hrec]
    · simp [sylFixElem, ht, hrec]

theorem sylFixList_of_norm :
    (cs : List Elem) → sylNormList cs = true → sylFixList cs = cs
  | [], _ => rfl
  | c :: cs, h => by
    simp only [sylNormList, Bool.and_eq_true] at h
    simp [sylFixList, sylFixElem_of_norm c h.1, sylFixList_of_norm cs h.2]

end

/-! ### The verse pass establishes its invariant and is the identity on
verse-free trees. -/

mutual

theorem noVerseAll_verseRemoveElem :
    (e : Elem) → e.tag ≠ verseTag → noVerseAll (verseRemoveElem e) = true
  | .mk t a cs, h => by
    have hcs := noVerseList_verseRemoveList cs
    simp only [Elem.tag] at h
    simp [verseRemoveElem, noVerseAll, h, hcs]

theorem noVerseList_verseRemoveList :
    (cs : List Elem) → noVerseList (verseRemoveList cs) = true
  | [] => rfl
  | c :: cs => by
    have h2 := noVerseList_verseRemoveList cs
    by_cases hc : c.tag = verseTag
    · simp [verseRemoveList, hc, h2]
    · have h1 := noVerseAll_verseRemoveElem c hc
      simp [verseRemoveList, noVerseList, hc, h1, h2]

end

mutual

theorem verseRemoveElem_id :
    (e : Elem) → noVerseList e.children = true → verseRemoveElem e = e
  | .mk t a cs, h => by
    simp only [Elem.children] at h
    simp [verseRemoveElem, verseRemoveList_id cs h]

theorem verseRemoveList_id :
    (cs : List Elem) → noVerseList cs = true → verseRemoveList cs = cs
  | [], _ => rfl
  | c :: cs, h => by
    simp only [noVerseList, Bool.and_eq_true] at h
    obtain ⟨h1, h2⟩ := h
    have hcase := h1
    rw [noVerseAll.eq_def] at hcase
    rcases c with ⟨t, a, cs'⟩
    simp only [Bool.and_eq_true] at hcase
    have ht : ¬(t = verseTag) := by simpa using hcase.1
    have hch : noVerseList cs' = true := hcase.2
    have hid : verseRemoveElem (Elem.mk t a cs') = Elem.mk t a cs' :=
      verseRemoveElem_id (Elem.mk t a cs') hch
    simp [verseRemoveList, Elem.tag, ht, hid, verseRemoveList_id cs h2]

end

/-! ### The measure pass establishes its invariant and is the identity on
trees whose measure numbers are already well-formed. -/

theorem nOK_of_badN_false {a : List (String × String)}
    (h : badN a = false) : nOK a = true := by
  unfold badN at h
  unfold nOK
  cases hg : getAttr a "n" with
  | none => rfl
  | some v =>
    rw [hg] at h
    by_cases hv : v = ""
    · simp [hv]
    · by_cases hp : pyIntParseable v = true
      · simp [hp]
      · exfalso
        simp [hv, Bool.not_eq_true] at h
        simp [h] at hp

theorem badN_of_nOK {a : List (String × String)}
    (h : nOK a = true) : badN a = false := by
  unfold nOK at h
  unfold badN
  cases hg : getAttr a "n" with
  | none => rfl
  | some v =>
    rw [hg] at h
    by_cases hv : v = ""
    · simp [hv]
    · simp [hv] at h
      simp [h]

theorem nOK_measRepair (k : Nat) (a : List (String × String)) :
    nOK (if badN a then setAttr a "n" (natToDec k) else a) = true := by
  by_cases hb : badN a = true
  · simp [hb, nOK, getAttr_setAttr_same, pyIntParseable_natToDec]
  · have hb' : badN a = false := by simpa using hb
    simp [hb', nOK_of_badN_false hb']

mutual

theorem measOKAll_measFixChild :
    (k : Nat) → (e : Elem) → e.tag = measureTag →
      measOKAll (measFixChild k e) = true
  | k, .mk t a cs, ht => by
    have h := measOKList_measFixList 0 cs
    simp only [Elem.tag] at ht
    simp [measFixChild, measOKAll, ht, nOK_measRepair, h]

theorem measOKAll_measFixElem :
    (e : Elem) → e.tag ≠ measureTag → measOKAll (measFixElem e) = true
  | .mk t a cs, ht => by
    have h := measOKList_measFixList 0 cs
    simp only [Elem.tag] at ht
    simp [measFixElem, measOKAll, ht, h]

theorem measOKList_measFixList :
    (k : Nat) → (cs : List Elem) → measOKList (measFixList k cs) = true
  | _, [] => rfl
  | k, c :: cs => by
    by_cases hc : c.tag = measureTag
    · simp [measFixList, measOKList, hc, measOKAll_measFixChild k c hc,
        measOKList_measFixList (k + 1) cs]
    · simp [measFixList, measOKList, hc, measOKAll_measFixElem c hc,
        measOKList_measFixList k cs]

end

mutual

theorem measFixChild_id :
    (k : Nat) → (e : Elem) → e.tag = measureTag → measOKAll e = true →
      measFixChild k e = e
  | k, .mk t a cs, ht, h => by
    simp only [Elem.tag] at ht
    simp only [measOKAll, Bool.and_eq_true] at h
    rw [if_pos ht] at h
    have hb := badN_of_nOK h.1
    simp [measFixChild, hb, measFixList_id 0 cs h.2]

theorem measFixElem_id :
    (e : Elem) → measOKList e.children = true → measFixElem e = e
  | .mk t a cs, h => by
    simp only [Elem.children] at h
    simp [measFixElem, measFixList_id 0 cs h]

theorem measFixList_id :
    (k : Nat) → (cs : List Elem) → measOKList cs = true → measFixList k cs = cs
  | _, [], _ => rfl
  | k, c :: cs, h => by
    simp only [measOKList, Bool.and_eq_true] at h
    obtain ⟨h1, h2⟩ := h
    by_cases hc : c.tag = measureTag
    · simp [measFixList, hc, measFixChild_id k c hc h1, measFixList_id (k + 1) cs h2]
    · rcases c with ⟨t, a, cs'⟩
      simp only [measOKAll, Bool.and_eq_true] at h1
      have hch : measOKList (Elem.mk t a cs').children = true := by
        simpa [Elem.children] using h1.2
      simp [measFixList, hc, measFixElem_id _ hch, measFixList_id k cs h2]

end

/-! ### The passes do not disturb each other's invariants. -/

theorem measureTag_ne_sylTag : measureTag ≠ sylTag := by decide

mutual

theorem sylNormAll_verseRemove :
    (e : Elem) → sylNormAll e = true → sylNormAll (verseRemoveElem e) = true
  | .mk t a cs, h => by
    simp only [sylNormAll, Bool.and_eq_true] at h
    simp [verseRemoveElem, sylNormAll, h.1, sylNormList_verseRemove cs h.2]

theorem sylNormList_verseRemove :
    (cs : List Elem) → sylNormList cs = true →
      sylNormList (verseRemoveList cs) = true
  | [], _ => rfl
  | c :: cs, h => by
    simp only [sylNormList, Bool.and_eq_true] at h
    by_cases hc : c.tag = verseTag
    · simp [verseRemoveList, hc, sylNormList_verseRemove cs h.2]
    · simp [verseRemoveList, sylNormList, hc, sylNormAll_verseRemove c h.1,
        sylNormList_verseRemove cs h.2]

end

mutual

theorem sylNormAll_measFixChild :
    (k : Nat) → (e : Elem) → e.tag = measureTag → sylNormAll e = true →
      sylNormAll (measFixChild k e) = true
  | k, .mk t a cs, ht, h => by
    simp only [Elem.tag] at ht
    simp only [sylNormAll, Bool.and_eq_true] at h
    have hts : ¬(t = sylTag) := by
      rw [ht]; exact measureTag_ne_sylTag
    simp [measFixChild, sylNormAll, hts, sylNormList_measFix 0 cs h.2]

theorem sylNormAll_measFixElem :
    (e : Elem) → sylNormAll e = true → sylNormAll (measFixElem e) = true
  | .mk t a cs, h => by
    simp only [sylNormAll, Bool.and_eq_true] at h
    simp [measFixElem, sylNormAll, h.1, sylNormList_measFix 0 cs h.2]

theorem sylNormList_measFix :
    (k : Nat) → (cs : List Elem) → sylNormList cs = true →
      sylNormList (measFixList k cs) = true
  | _, [], _ => rfl
  | k, c :: cs, h => by
    simp only [sylNormList, Bool.and_eq_true] at h
    by_cases hc : c.tag = measureTag
    · simp [measFixList, sylNormList, hc, sylNormAll_measFixChild k c hc h.1,
        sylNormList_measFix (k + 1) cs h.2]
    · simp [measFixList, sylNormList, hc, sylNormAll_measFixElem c h.1,
        sylNormList_measFix k cs h.2]

end

mutual

theorem noVerseAll_measFixChild :
    (k : Nat) → (e : Elem) → noVerseAll e = true →
      noVerseAll (measFixChild k e) = true
  | k, .mk t a cs, h => by
    simp only [noVerseAll, Bool.and_eq_true] at h
    simp [measFixChild, noVerseAll, h.1, noVerseList_measFix 0 cs h.2]

theorem noVerseAll_measFixElem :
    (e : Elem) → noVerseAll e = true → noVerseAll (measFixElem e) = true
  | .mk t a cs, h => by
    simp only [noVerseAll, Bool.and_eq_true] at h
    simp [measFixElem, noVerseAll, h.1, noVerseList_measFix 0 cs h.2]

theorem noVerseList_measFix :
    (k : Nat) → (cs : List Elem) → noVerseList cs = true →
      noVerseList (measFixList k cs) = true
  | _, [], _ => rfl
  | k, c :: cs, h => by
    simp only [noVerseList, Bool.and_eq_true] at h
    by_cases hc : c.tag = measureTag
    · simp [measFixList, noVerseList, hc, noVerseAll_measFixChild k c h.1,
        noVerseList_measFix (k + 1) cs h.2]
    · simp [measFixList, noVerseList, hc, noVerseAll_measFixElem c h.1,
        noVerseList_measFix k cs h.2]

end

/-! ### Verse-free trees contain zero verse elements (count form). -/

mutual

theorem countTagAll_zero :
    (e : Elem) → noVerseAll e = true → countTagAll verseTag e = 0
  | .mk t a cs, h => by
    simp only [noVerseAll, Bool.and_eq_true] at h
    have ht : ¬(t = verseTag) := by simpa using h.1
    simp [countTagAll, ht, countTagList_zero cs h.2]

theorem countTagList_zero :
    (cs : List Elem) → noVerseList cs = true → countTagList verseTag cs = 0
  | [], _ => rfl
  | c :: cs, h => by
    simp only [noVerseList, Bool.and_eq_true] at h
    simp [countTagList, countTagAll_zero c h.1, countTagList_zero cs h.2]

end

/-! ### Only the verse pass changes the element structure; the other two
passes touch attributes only. -/

theorem stripAttrs_tag (e : Elem) : (stripAttrsElem e).tag = e.tag := by
  rcases e with ⟨t, a, cs⟩
  rfl

mutual

theorem stripAttrs_sylFixElem :
    (e : Elem) → stripAttrsElem (sylFixElem e) = stripAttrsElem e
  | .mk t a cs => by
    simp [sylFixElem, stripAttrsElem, stripAttrs_sylFixList cs]

theorem stripAttrs_sylFixList :
    (cs : List Elem) → stripAttrsList (sylFixList cs) = stripAttrsList cs
  | [] => rfl
  | c :: cs => by
    simp [sylFixList, stripAttrsList, stripAttrs_sylFixElem c,
      stripAttrs_sylFixList cs]

end

mutual

theorem stripAttrs_measFixChild :
    (k : Nat) → (e : Elem) → stripAttrsElem (measFixChild k e) = stripAttrsElem e
  | k, .mk t a cs => by
    simp [measFixChild, stripAttrsElem, stripAttrs_measFixList 0 cs]

theorem stripAttrs_measFixElem :
    (e : Elem) → stripAttrsElem (measFixElem e) = stripAttrsElem e
  | .mk t a cs => by
    simp [measFixElem, stripAttrsElem, stripAttrs_measFixList 0 cs]

theorem stripAttrs_measFixList :
    (k : Nat) → (cs : List Elem) → stripAttrsList (measFixList k cs) = stripAttrsList cs
  | _, [] => rfl
  | k, c :: cs => by
    by_cases hc : c.tag = measureTag
    · simp [measFixList, stripAttrsList, hc, stripAttrs_measFixChild k c,
        stripAttrs_measFixList (k + 1) cs]
    · simp [measFixList, stripAttrsList, hc, stripAttrs_measFixElem c,
        stripAttrs_measFixList k cs]

end

mutual

theorem stripAttrs_verseRemoveElem :
    (e : Elem) → stripAttrsElem (verseRemoveElem e) = verseRemoveElem (stripAttrsElem e)
  | .mk t a cs => by
    simp [verseRemoveElem, stripAttrsElem, stripAttrs_verseRemoveList cs]

theorem stripAttrs_verseRemoveList :
    (cs : List Elem) → stripAttrsList (verseRemoveList cs) = verseRemoveList (stripAttrsList cs)
  | [] => rfl
  | c :: cs => by
    by_cases hc : c.tag = verseTag
    · have hc' : (stripAttrsElem c).tag = verseTag := by rw [stripAttrs_tag, hc]
      simp [verseRemoveList, stripAttrsList, hc, hc', stripAttrs_verseRemoveList cs]
    · have hc' : ¬((stripAttrsElem c).tag = verseTag) := by
        rw [stripAttrs_tag]; exact hc
      simp [verseRemoveList, stripAttrsList, hc, hc', stripAttrs_verseRemoveElem c,
        stripAttrs_verseRemoveList cs]

end

theorem stripAttrs_sylTop (t : Elem) :
    stripAttrsElem (sylTop t) = stripAttrsElem t := by
  rcases t with ⟨tg, a, cs⟩
  simp [sylTop, stripAttrsElem, stripAttrs_sylFixList cs]

/-! ### Locating an element's image under the measure pass. -/

theorem measFixChild_tag (k : Nat) (e : Elem) :
    (measFixChild k e).tag = e.tag := by
  rcases e with ⟨t, a, cs⟩
  rfl

theorem measFixElem_tag (e : Elem) : (measFixElem e).tag = e.tag := by
  rcases e with ⟨t, a, cs⟩
  rfl

theorem measFixChild_children (k : Nat) (e : Elem) :
    (measFixChild k e).children = measFixList 0 e.children := by
  rcases e with ⟨t, a, cs⟩
  rfl

theorem measFixElem_children (e : Elem) :
    (measFixElem e).children = measFixList 0 e.children := by
  rcases e with ⟨t, a, cs⟩
  rfl

theorem occurs_cases {y u : Elem} (h : Occurs y u) :
    y = u ∨ ∃ c ∈ u.children, Occurs y c := by
  cases h with
  | refl => exact Or.inl rfl
  | child hm hocc => exact Or.inr ⟨_, hm, hocc⟩

theorem mem_measFixList :
    (cs : List Elem) → (k : Nat) → (c : Elem) → c ∈ cs →
      measFixElem c ∈ measFixList k cs ∨ ∃ j, measFixChild j c ∈ measFixList k cs
  | c' :: cs, k, c, h => by
    rcases List.mem_cons.mp h with rfl | h'
    · by_cases hc : c.tag = measureTag
      · exact Or.inr ⟨k, by simp [measFixList, hc]⟩
      · exact Or.inl (by simp [measFixList, hc])
    · by_cases hc : c'.tag = measureTag
      · rcases mem_measFixList cs (k + 1) c h' with h1 | ⟨j, hj⟩
        · exact Or.inl (by simp [measFixList, hc, List.mem_cons]; right; exact h1)
        · exact Or.inr ⟨j, by simp [measFixList, hc, List.mem_cons]; right; exact hj⟩
      · rcases mem_measFixList cs k c h' with h1 | ⟨j, hj⟩
        · exact Or.inl (by simp [measFixList, hc, List.mem_cons]; right; exact h1)
        · exact Or.inr ⟨j, by simp [measFixList, hc, List.mem_cons]; right; exact hj⟩

theorem occurs_of_mem_children {y c' d : Elem} (hc : c' ∈ d.children)
    (h : Occurs y c') : Occurs y d := by
  rcases d with ⟨t, a, cs⟩
  exact Occurs.child (by simpa [Elem.children] using hc) h

/-- Every node of the tree has an image in the measure-pass output whose
child list is the repaired child list. -/
theorem occurs_measFix {x u : Elem} (h : Occurs x u) :
    ∃ y, Occurs y (measFixElem u) ∧ y.children = measFixList 0 x.children := by
  induction h with
  | refl => exact ⟨measFixElem _, Occurs.refl _, measFixElem_children _⟩
  | child hm hocc ih =>
    rename_i c t a cs
    obtain ⟨y, hy, hych⟩ := ih
    have hstep : ∀ (z d : Elem), d ∈ measFixList 0 cs → Occurs z d →
        Occurs z (measFixElem (Elem.mk t a cs)) := by
      intro z d hd hyd
      refine occurs_of_mem_children (d := measFixElem (Elem.mk t a cs)) ?_ hyd
      rw [measFixElem_children]
      simpa [Elem.children] using hd
    rcases mem_measFixList cs 0 c hm with hmem | ⟨j, hmem⟩
    · exact ⟨y, hstep _ _ hmem hy, hych⟩
    · rcases occurs_cases hy with rfl | ⟨c', hc', hyc'⟩
      · refine ⟨measFixChild j c, hstep _ _ hmem (Occurs.refl _), ?_⟩
        rw [measFixChild_children, ← measFixElem_children]
        exact hych
      · have h1 : c' ∈ (measFixChild j c).children := by
          rw [measFixChild_children, ← measFixElem_children]
          exact hc'
        exact ⟨y, hstep _ _ hmem (occurs_of_mem_children h1 hyc'), hych⟩

/-- The `k`-th measure child of a repaired child list is the repaired `k`-th
measure child of the original list (with the ordinal offset by the starting
index `j`). -/
theorem measFilter_get :
    (cs : List Elem) → (j k : Nat) → (c : Elem) →
      (cs.filter (fun x => x.tag = measureTag))[k]? = some c →
      ((measFixList j cs).filter (fun x => x.tag = measureTag))[k]? =
        some (measFixChild (j + k) c)
  | [], j, k, c, h => by simp at h
  | c' :: cs, j, k, c, h => by
    by_cases hc : c'.tag = measureTag
    · have hfix : (measFixChild j c').tag = measureTag := by
        rw [measFixChild_tag]; exact hc
      cases k with
      | zero =>
        have hcc : c' = c := by simpa [List.filter_cons, hc] using h
        subst hcc
        simp [measFixList, hc, List.filter_cons, hfix]
      | succ k =>
        have htail : (cs.filter (fun x => x.tag = measureTag))[k]? = some c := by
          simpa [List.filter_cons, hc] using h
        have := measFilter_get cs (j + 1) k c htail
        have harith : j + 1 + k = j + (k + 1) := by omega
        rw [harith] at this
        simpa [measFixList, hc, List.filter_cons, hfix] using this
    · have hfix : ¬((measFixElem c').tag = measureTag) := by
        rw [measFixElem_tag]; exact hc
      have htail : (cs.filter (fun x => x.tag = measureTag))[k]? = some c := by
        simpa [List.filter_cons, hc] using h
      have := measFilter_get cs j k c htail
      simpa [measFixList, hc, List.filter_cons, hfix] using this

theorem badN_true {a : List (String × String)} {v : String}
    (hg : getAttr a "n" = some v) (hne : v ≠ "") (hp : pyIntParseable v = false) :
    badN a = true := by
  simp [badN, hg, hne, hp]

/-! ### Assembler lemmas. -/

theorem addTempoEvents_of_nonempty :
    (ts : List TempoIndication) → (acc : List MidiEvent) →
      (∀ t ∈ ts, t.events ≠ []) →
      addTempoEvents ts acc =
        some (acc ++ ts.map (fun t => setTempoEvent t.events.headI.data))
  | [], acc, _ => by simp [addTempoEvents]
  | t :: ts, acc, h => by
    have ht := h t (by simp)
    rcases hev : t.events with _ | ⟨e, rest⟩
    · exact absurd hev ht
    · have hrec := addTempoEvents_of_nonempty ts (acc ++ [setTempoEvent e.data])
        (fun x hx => h x (by simp [hx]))
      simp [addTempoEvents, hev, hrec, List.headI]

theorem addTempoEvents_none :
    (ts : List TempoIndication) → (acc : List MidiEvent) →
      (∃ t ∈ ts, t.events = []) → addTempoEvents ts acc = none
  | t :: ts, acc, ⟨x, hx, hev⟩ => by
    rcases List.mem_cons.mp hx with rfl | h'
    · simp [addTempoEvents, hev]
    · rcases hevt : t.events with _ | ⟨e, rest⟩
      · simp [addTempoEvents, hevt]
      · simp only [addTempoEvents, hevt]
        exact addTempoEvents_none ts _ ⟨x, h', hev⟩

theorem addNoteEvents_eq :
    (ns : List GeneralNote) → (acc : List MidiEvent) →
      addNoteEvents ns acc =
        acc ++ (ns.filter (fun n => !n.isRest)).flatMap (fun n => n.events)
  | [], acc => by simp [addNoteEvents]
  | n :: ns, acc => by
    by_cases hr : n.isRest = true
    · simp [addNoteEvents, hr, addNoteEvents_eq ns acc, List.filter_cons]
    · have hr' : n.isRest = false := by simpa using hr
      simp [addNoteEvents, hr', addNoteEvents_eq ns (acc ++ n.events),
        List.filter_cons]

/-! ## Claim theorems -/

/-- C1 counterexample: an input whose root element is itself a verse is left
with one verse element after successful sanitation (`findall('.//mei:verse')`
never selects the root), so "the returned document tree contains zero lyric
(verse) elements" is false as stated. -/
theorem verse_root_survives :
    sanitizeTree (Elem.mk verseTag [] []) = Elem.mk verseTag [] [] ∧
    countTagAll verseTag (sanitizeTree (Elem.mk verseTag [] [])) = 1 := by
  decide

/-- C1 (amended): after successful sanitation the tree contains zero verse
elements strictly below the root (every non-root verse element, at any depth
and any number per note, is detached from its parent's child sequence), and
no other elements are removed: forgetting attributes, the output tree is
exactly the verse-removal of the input tree. -/
theorem sanitize_removes_all_nonroot_verses (t : Elem) :
    countTagBelow verseTag (sanitizeTree t) = 0 ∧
    stripAttrsElem (sanitizeTree t) = verseRemoveElem (stripAttrsElem t) := by
  constructor
  · rcases t with ⟨tg, a, cs⟩
    show countTagList verseTag (measFixList 0 (verseRemoveList (sylFixList cs))) = 0
    exact countTagList_zero _ (noVerseList_measFix 0 _ (noVerseList_verseRemoveList _))
  · show stripAttrsElem (measFixElem (verseRemoveElem (sylTop t))) = _
    rw [stripAttrs_measFixElem, stripAttrs_verseRemoveElem, stripAttrs_sylTop]

/-- C5: sanitation is idempotent on the document tree — a second application
changes nothing, because after the first one every non-root syl marker is
normalized, no non-root verse remains, and every non-root measure number is
absent, empty or parseable. -/
theorem sanitizeTree_idempotent (t : Elem) :
    sanitizeTree (sanitizeTree t) = sanitizeTree t := by
  rcases t with ⟨tg, a, cs⟩
  set X := measFixList 0 (verseRemoveList (sylFixList cs)) with hX
  have hsan : sanitizeTree (Elem.mk tg a cs) = Elem.mk tg a X := rfl
  have hsyl : sylNormList X = true := by
    rw [hX]
    exact sylNormList_measFix 0 _
      (sylNormList_verseRemove _ (sylNormList_sylFixList cs))
  have hver : noVerseList X = true := by
    rw [hX]
    exact noVerseList_measFix 0 _ (noVerseList_verseRemoveList _)
  have hmeas : measOKList X = true := by
    rw [hX]
    exact measOKList_measFixList 0 _
  rw [hsan]
  show measFixElem (verseRemoveElem (sylTop (Elem.mk tg a X))) = Elem.mk tg a X
  have e1 : sylTop (Elem.mk tg a X) = Elem.mk tg a X := by
    simp [sylTop, sylFixList_of_norm X hsyl]
  have e2 : verseRemoveElem (Elem.mk tg a X) = Elem.mk tg a X := by
    simp [verseRemoveElem, verseRemoveList_id X hver]
  have e3 : measFixElem (Elem.mk tg a X) = Elem.mk tg a X := by
    simp [measFixElem, measFixList_id 0 X hmeas]
  rw [e1, e2, e3]

/-- C7 counterexample: an input with zero lyric (verse) elements is not left
structurally unchanged — a measure with a non-numeric number is rewritten
even though no lyric is present, so "on lyric-free inputs the sanitizer acts
as the identity" is false as stated. -/
theorem lyric_free_not_identity :
    countTagAll verseTag (Elem.mk "root" [] [Elem.mk measureTag [("n", "x")] []]) = 0 ∧
    sanitizeTree (Elem.mk "root" [] [Elem.mk measureTag [("n", "x")] []]) ≠
      Elem.mk "root" [] [Elem.mk measureTag [("n", "x")] []] := by
  decide

/-- C7 (amended): on inputs with zero verse elements below the root, zero
syl elements needing marker normalization and zero measures needing number
repair, the sanitizer is the identity on the document tree. -/
theorem sanitize_id_on_clean (t : Elem)
    (h1 : noVerseBelow t = true) (h2 : sylNormBelow t = true)
    (h3 : measOKBelow t = true) : sanitizeTree t = t := by
  rcases t with ⟨tg, a, cs⟩
  have h1' : noVerseList cs = true := h1
  have h2' : sylNormList cs = true := h2
  have h3' : measOKList cs = true := h3
  show measFixElem (verseRemoveElem (sylTop (Elem.mk tg a cs))) = Elem.mk tg a cs
  have e1 : sylTop (Elem.mk tg a cs) = Elem.mk tg a cs := by
    simp [sylTop, sylFixList_of_norm cs h2']
  have e2 : verseRemoveElem (Elem.mk tg a cs) = Elem.mk tg a cs := by
    simp [verseRemoveElem, verseRemoveList_id cs h1']
  have e3 : measFixElem (Elem.mk tg a cs) = Elem.mk tg a cs := by
    simp [measFixElem, measFixList_id 0 cs h3']
  rw [e1, e2, e3]

/-- C7 witness: a concrete lyric-free, already-clean document is fixed by the
sanitizer. -/
theorem sanitize_id_on_clean_witness :
    sanitizeTree (Elem.mk "root" [("meiversion", "4.0")]
      [Elem.mk measureTag [("n", "1")] [Elem.mk "note" [("pname", "c")] []]]) =
    Elem.mk "root" [("meiversion", "4.0")]
      [Elem.mk measureTag [("n", "1")] [Elem.mk "note" [("pname", "c")] []]] :=
  sanitize_id_on_clean _ (by decide) (by decide) (by decide)

/-- C3 counterexample: a measure whose number attribute is present but equal
to the empty string is present and not integer-parseable, yet the `if
measure_num:` truthiness check skips it, so it is not replaced by its sibling
index "0" — the claim fails for present-but-empty attributes. -/
theorem empty_measure_number_not_replaced :
    pyIntParseable "" = false ∧
    getAttr [("n", "")] "n" = some "" ∧
    sanitizeTree (Elem.mk "root" [] [Elem.mk measureTag [("n", "")] []]) =
      Elem.mk "root" [] [Elem.mk measureTag [("n", "")] []] := by
  decide

/-- C3 (amended): for every element of the tree the measure pass visits (the
tree after lyric removal) and every measure child of it, at zero-based index
`k` among its parent's measure children, whose number attribute is present,
non-empty and not integer-parseable, the sanitized tree contains the parent's
image whose `k`-th measure child carries the decimal string of `k` as its
number attribute. -/
theorem sanitize_repairs_bad_measure_numbers (t e c : Elem) (k : Nat)
    (v : String)
    (he : Occurs e (verseRemoveElem (sylTop t)))
    (hk : (measureChildren e)[k]? = some c)
    (hv : getAttr c.attrs "n" = some v)
    (hne : v ≠ "")
    (hp : pyIntParseable v = false) :
    ∃ e', Occurs e' (sanitizeTree t) ∧
      (measureChildren e')[k]? = some (measFixChild k c) ∧
      getAttr (measFixChild k c).attrs "n" = some (natToDec k) := by
  obtain ⟨e', he', hch⟩ := occurs_measFix he
  refine ⟨e', he', ?_, ?_⟩
  · unfold measureChildren
    rw [hch]
    have := measFilter_get e.children 0 k c (by simpa [measureChildren] using hk)
    simpa using this
  · rcases c with ⟨tc, ac, csc⟩
    have hb : badN ac = true := badN_true (by simpa [Elem.attrs] using hv) hne hp
    simp [measFixChild, Elem.attrs, hb, getAttr_setAttr_same]

/-- C3 witness: in a document whose root has measure children numbered
"1", "2", "abc" (with a non-measure sibling interleaved), the third measure
child (index 2) has the non-parseable number "abc" and is repaired to "2". -/
theorem sanitize_repairs_bad_measure_numbers_witness :
    (∃ e', Occurs e' (sanitizeTree (Elem.mk "root" []
        [Elem.mk measureTag [("n", "1")] [], Elem.mk "staff" [] [],
         Elem.mk measureTag [("n", "2")] [],
         Elem.mk measureTag [("n", "abc")] []])) ∧
      (measureChildren e')[2]? =
        some (measFixChild 2 (Elem.mk measureTag [("n", "abc")] [])) ∧
      getAttr (measFixChild 2 (Elem.mk measureTag [("n", "abc")] [])).attrs "n" =
        some (natToDec 2)) ∧
    natToDec 2 = "2" := by
  constructor
  · exact sanitize_repairs_bad_measure_numbers
      (Elem.mk "root" []
        [Elem.mk measureTag [("n", "1")] [], Elem.mk "staff" [] [],
         Elem.mk measureTag [("n", "2")] [],
         Elem.mk measureTag [("n", "abc")] []])
      (Elem.mk "root" []
        [Elem.mk measureTag [("n", "1")] [], Elem.mk "staff" [] [],
         Elem.mk measureTag [("n", "2")] [],
         Elem.mk measureTag [("n", "abc")] []])
      (Elem.mk measureTag [("n", "abc")] []) 2 "abc"
      (Occurs.refl _) (by decide) (by decide) (by decide) (by decide)
  · decide

/-- C9: a measure child whose number attribute is present but empty is left
entirely unchanged by the repair (Python truthiness treats the empty string
like an absent attribute): its attribute list is untouched and the tree still
carries it at the same measure-child position. -/
theorem empty_measure_number_unchanged (t e c : Elem) (k : Nat)
    (he : Occurs e (verseRemoveElem (sylTop t)))
    (hk : (measureChildren e)[k]? = some c)
    (hv : getAttr c.attrs "n" = some "") :
    ∃ e', Occurs e' (sanitizeTree t) ∧
      (measureChildren e')[k]? = some (measFixChild k c) ∧
      (measFixChild k c).attrs = c.attrs := by
  obtain ⟨e', he', hch⟩ := occurs_measFix he
  refine ⟨e', he', ?_, ?_⟩
  · unfold measureChildren
    rw [hch]
    have := measFilter_get e.children 0 k c (by simpa [measureChildren] using hk)
    simpa using this
  · rcases c with ⟨tc, ac, csc⟩
    have hb : badN ac = false := by
      simp [badN, show getAttr ac "n" = some "" from hv]
    simp [measFixChild, Elem.attrs, hb]

/-- C9 witness: a document whose single measure child has `n=""` keeps that
attribute list verbatim. -/
theorem empty_measure_number_unchanged_witness :
    ∃ e', Occurs e' (sanitizeTree (Elem.mk "root" []
        [Elem.mk measureTag [("n", "")] []])) ∧
      (measureChildren e')[0]? =
        some (measFixChild 0 (Elem.mk measureTag [("n", "")] [])) ∧
      (measFixChild 0 (Elem.mk measureTag [("n", "")] [])).attrs =
        (Elem.mk measureTag [("n", "")] []).attrs :=
  empty_measure_number_unchanged
    (Elem.mk "root" [] [Elem.mk measureTag [("n", "")] []])
    (Elem.mk "root" [] [Elem.mk measureTag [("n", "")] []])
    (Elem.mk measureTag [("n", "")] []) 0
    (Occurs.refl _) (by decide) (by decide)

/-- C6 counterexample: after sanitation a measure can still carry a present
number attribute (the empty string) that does not parse as an integer, so
"if present then integer-parseable" is false as stated. -/
theorem empty_measure_number_violates_invariant :
    measIntAll (sanitizeTree
      (Elem.mk "root" [] [Elem.mk measureTag [("n", "")] []])) = false := by
  decide

/-- C6 (amended): after sanitation every measure element strictly below the
root has a number attribute that is absent, empty, or integer-parseable; and
the repair leaves an absent attribute absent and an already-parseable value
unchanged. -/
theorem sanitize_measure_number_invariant (t c : Elem) (k : Nat) :
    measOKBelow (sanitizeTree t) = true ∧
    (getAttr c.attrs "n" = none →
      getAttr (measFixChild k c).attrs "n" = none) ∧
    (∀ v, getAttr c.attrs "n" = some v → pyIntParseable v = true →
      getAttr (measFixChild k c).attrs "n" = some v) := by
  refine ⟨?_, ?_, ?_⟩
  · rcases t with ⟨tg, a, cs⟩
    show measOKList (measFixList 0 (verseRemoveList (sylFixList cs))) = true
    exact measOKList_measFixList 0 _
  · intro hnone
    rcases c with ⟨tc, ac, csc⟩
    have hb : badN ac = false := by
      simp [badN, show getAttr ac "n" = none from hnone]
    simp [measFixChild, Elem.attrs, hb]
    exact hnone
  · intro v hsome hpar
    rcases c with ⟨tc, ac, csc⟩
    have hb : badN ac = false := by
      simp [badN, show getAttr ac "n" = some v from hsome, hpar]
    simp [measFixChild, Elem.attrs, hb]
    exact hsome

/-- C6 witness: the invariant on a concrete sanitized document, and the
repair leaving `n="7"` untouched at any sibling index. -/
theorem sanitize_measure_number_invariant_witness :
    measOKBelow (sanitizeTree (Elem.mk "root" []
      [Elem.mk measureTag [("n", "abc")] []])) = true ∧
    getAttr (measFixChild 5 (Elem.mk measureTag [("n", "7")] [])).attrs "n" =
      some "7" :=
  ⟨(sanitize_measure_number_invariant
      (Elem.mk "root" [] [Elem.mk measureTag [("n", "abc")] []])
      (Elem.mk measureTag [("n", "7")] []) 5).1,
   (sanitize_measure_number_invariant
      (Elem.mk "root" [] [Elem.mk measureTag [("n", "abc")] []])
      (Elem.mk measureTag [("n", "7")] []) 5).2.2 "7" (by decide) (by decide)⟩

/-- C8 counterexample: a document whose root element is itself a syl element
keeps its unrecognized position marker (`findall('.//mei:syl')` never selects
the root), so "for every syllable element the marker ends up well-defined" is
false as stated. -/
theorem root_syl_not_normalized :
    sylNormAll (sanitizeTree (Elem.mk sylTag [("wordpos", "x")] [])) = false := by
  decide

/-- C8 (amended): after sanitation every syl element strictly below the root
carries one of the four defined position codes; and the per-element rewrite
keeps a defined code unchanged, rewrites the unspecified code "u" to "i", and
rewrites any other value (absent included) to "s". -/
theorem sanitize_syl_normalization (t : Elem) (a : List (String × String)) :
    sylNormBelow (sanitizeTree t) = true ∧
    (∀ w, getAttr a "wordpos" = some w →
      (w = "s" ∨ w = "i" ∨ w = "m" ∨ w = "t") → fixWordposAttrs a = a) ∧
    (getAttr a "wordpos" = some "u" →
      getAttr (fixWordposAttrs a) "wordpos" = some "i") ∧
    (∀ w, getAttr a "wordpos" = some w →
      ¬(w = "s" ∨ w = "i" ∨ w = "m" ∨ w = "t") → ¬(w = "u") →
      getAttr (fixWordposAttrs a) "wordpos" = some "s") ∧
    (getAttr a "wordpos" = none →
      getAttr (fixWordposAttrs a) "wordpos" = some "s") := by
  refine ⟨?_, ?_, ?_, ?_, ?_⟩
  · rcases t with ⟨tg, at', cs⟩
    show sylNormList (measFixList 0 (verseRemoveList (sylFixList cs))) = true
    exact sylNormList_measFix 0 _
      (sylNormList_verseRemove _ (sylNormList_sylFixList cs))
  · intro w hw h4
    simp [fixWordposAttrs, hw, h4]
  · intro hu
    have h4 : ¬(("u" : String) = "s" ∨ ("u" : String) = "i" ∨
        ("u" : String) = "m" ∨ ("u" : String) = "t") := by decide
    simp [fixWordposAttrs, hu, h4, getAttr_setAttr_same]
  · intro w hw h4 hu
    simp [fixWordposAttrs, hw, h4, hu, getAttr_setAttr_same]
  · intro hnone
    simp [fixWordposAttrs, hnone, getAttr_setAttr_same]

/-- C8 witness: the below-root invariant on a concrete document and the three
rewrite cases at concrete attribute lists. -/
theorem sanitize_syl_normalization_witness :
    sylNormBelow (sanitizeTree (Elem.mk "root" []
      [Elem.mk sylTag [("wordpos", "z")] []])) = true ∧
    getAttr (fixWordposAttrs [("wordpos", "u")]) "wordpos" = some "i" ∧
    getAttr (fixWordposAttrs [("wordpos", "z")]) "wordpos" = some "s" ∧
    fixWordposAttrs [("wordpos", "m")] = [("wordpos", "m")] :=
  ⟨(sanitize_syl_normalization
      (Elem.mk "root" [] [Elem.mk sylTag [("wordpos", "z")] []]) []).1,
   (sanitize_syl_normalization (Elem.mk "root" [] [])
      [("wordpos", "u")]).2.2.1 (by decide),
   (sanitize_syl_normalization (Elem.mk "root" [] [])
      [("wordpos", "z")]).2.2.2.1 "z" (by decide) (by decide) (by decide),
   (sanitize_syl_normalization (Elem.mk "root" [] [])
      [("wordpos", "m")]).2.1 "m" (by decide) (by decide)⟩

/-- C4: the sanitizer never raises past its boundary — for any XML codec and
any input text, if parsing fails it returns the original input text
unchanged, and otherwise it returns the serialization of the transformed
tree. -/
theorem remove_lyrics_fallback (fromstring : String → Option Elem)
    (tostring : Elem → String) (s : String) :
    (fromstring s = none → remove_lyrics_from_mei fromstring tostring s = s) ∧
    (∀ root, fromstring s = some root →
      remove_lyrics_from_mei fromstring tostring s =
        tostring (sanitizeTree root)) := by
  constructor
  · intro h
    simp [remove_lyrics_from_mei, h]
  · intro root h
    simp [remove_lyrics_from_mei, h]

/-- C4 witness: both boundary behaviours at concrete codecs and inputs. -/
theorem remove_lyrics_fallback_witness :
    remove_lyrics_from_mei (fun _ => none) (fun _ => "serialized") "<bad xml" =
      "<bad xml" ∧
    remove_lyrics_from_mei (fun _ => some (Elem.mk "mei" [] []))
      (fun _ => "serialized") "<mei/>" = "serialized" :=
  ⟨(remove_lyrics_fallback (fun _ => none) (fun _ => "serialized")
      "<bad xml").1 rfl,
   (remove_lyrics_fallback (fun _ => some (Elem.mk "mei" [] []))
      (fun _ => "serialized") "<mei/>").2 (Elem.mk "mei" [] []) rfl⟩

/-- C2: when every tempo indication translates to a non-empty event group,
the assembled track is exactly: one SET_TEMPO event at time zero per tempo
indication in flattened order, carrying the data of the first event of its
translated group, followed by the full translated event groups of the
non-rest notes in flattened time order, each group appended whole before the
next object; rests contribute nothing, and each written object contributes
exactly once (the walk is over the unexpanded flattened view). -/
theorem assembleTrack_spec (s : Score)
    (h : ∀ t ∈ s.tempos, t.events ≠ []) :
    assembleTrack s = some
      (s.tempos.map (fun t => setTempoEvent t.events.headI.data) ++
        (s.notesAndRests.filter (fun n => !n.isRest)).flatMap
          (fun n => n.events)) := by
  unfold assembleTrack
  rw [addTempoEvents_of_nonempty s.tempos [] h]
  simp [addNoteEvents_eq]

/-- C2 witness: a score with one two-event tempo translation (only the first
event's data is used), one rest and one two-event note: the track is the
tempo event followed by the note's two events; the rest contributes none. -/
theorem assembleTrack_spec_witness :
    assembleTrack
      { tempos := [⟨[⟨0, 0, "SET_TEMPO", [7, 161, 32]⟩, ⟨0, 0, "DeltaTime", [0]⟩]⟩],
        notesAndRests :=
          [⟨true, [⟨0, 0, "NOTE_ON", [60]⟩]⟩,
           ⟨false, [⟨0, 0, "NOTE_ON", [64]⟩, ⟨0, 480, "NOTE_OFF", [64]⟩]⟩] } =
    some [⟨0, 0, "SET_TEMPO", [7, 161, 32]⟩,
          ⟨0, 0, "NOTE_ON", [64]⟩, ⟨0, 480, "NOTE_OFF", [64]⟩] := by
  have h := assembleTrack_spec
    { tempos := [⟨[⟨0, 0, "SET_TEMPO", [7, 161, 32]⟩, ⟨0, 0, "DeltaTime", [0]⟩]⟩],
      notesAndRests :=
        [⟨true, [⟨0, 0, "NOTE_ON", [60]⟩]⟩,
         ⟨false, [⟨0, 0, "NOTE_ON", [64]⟩, ⟨0, 480, "NOTE_OFF", [64]⟩]⟩] }
    (by decide)
  exact h

/-- C10: `tempoToMidiEvents(t)[0]` is indexed without a guard — if some tempo
indication translates to an empty event sequence, assembly fails, the failure
is caught at the MIDI-creation boundary and the conversion yields no output
path; if every tempo translation is non-empty, that error branch is
unreachable and assembly succeeds. -/
theorem tempo_empty_translation_guard (s : Score) (out : String) :
    ((∃ t ∈ s.tempos, t.events = []) →
      assembleTrack s = none ∧ midiCreation s out = none) ∧
    ((∀ t ∈ s.tempos, t.events ≠ []) →
      ∃ evs, assembleTrack s = some evs ∧ midiCreation s out = some out) := by
  constructor
  · intro h
    have h1 : addTempoEvents s.tempos [] = none := addTempoEvents_none _ _ h
    have h2 : assembleTrack s = none := by
      unfold assembleTrack
      rw [h1]
    exact ⟨h2, by unfold midiCreation; rw [h2]⟩
  · intro h
    have h1 := addTempoEvents_of_nonempty s.tempos [] h
    have h2 : assembleTrack s = some (addNoteEvents s.notesAndRests
        ([] ++ s.tempos.map (fun t => setTempoEvent t.events.headI.data))) := by
      unfold assembleTrack
      rw [h1]
    exact ⟨_, h2, by unfold midiCreation; rw [h2]⟩

/-- C10 witness: a score whose only tempo indication translates to an empty
event sequence produces no output path, while one with a non-empty
translation succeeds. -/
theorem tempo_empty_translation_guard_witness :
    midiCreation ⟨[⟨[]⟩], []⟩ "out.mid" = none ∧
    midiCreation ⟨[⟨[⟨0, 0, "SET_TEMPO", [7, 161, 32]⟩]⟩], []⟩ "out.mid" =
      some "out.mid" := by
  constructor
  · exact ((tempo_empty_translation_guard ⟨[⟨[]⟩], []⟩ "out.mid").1
      ⟨⟨[]⟩, by decide, rfl⟩).2
  · obtain ⟨evs, _, h2⟩ := (tempo_empty_translation_guard
      ⟨[⟨[⟨0, 0, "SET_TEMPO", [7, 161, 32]⟩]⟩], []⟩ "out.mid").2 (by decide)
    exact h2

end MeiToMidi
